import Mathlib

/-!
Verification of the scalc postfix calculator (package `scalc` of the parlex
repository): the tree canonicalizer (`rdcr` / `stack`), the evaluator
(`evalStack`, `evalE`, `evalUop`, `evalBop`, `evalSop`, `evalSmp`,
`maxPrecision`) and the precision-tagged numeric type `Pfloat`.

Modelling conventions:
* Go `float64` values are modelled as rationals (`ℚ`).  All claims under
  scrutiny concern precision propagation, selection and comparison results,
  none of which depend on floating-point rounding; floating-point
  infinities/NaN are out of scope (spec section 7 treats them as ordinary
  float semantics, not a distinct behaviour).
* Go `int` precisions are modelled as `ℤ` (so that `len(c1) - 1` keeps its
  exact Go meaning, including the possibility of a negative result).
* A Go runtime panic (slice index out of range) is modelled as `none`;
  evaluation functions return `Option` results.
* Parse trees are the `tree.PN` nodes of the parlex repository: a kind, an
  optional literal value and an ordered child list.
-/

namespace SCalc

/-- A parse-tree node: kind label, literal value, ordered children
(`tree.PN` of the repository: `{kind, value, children}`). -/
inductive PN where
  | mk (kind : String) (val : String) (C : List PN)

/-- Kind label of a node. -/
def PN.kind : PN → String
  | .mk k _ _ => k

/-- Literal value of a node (`Value()`; empty for nonterminal nodes). -/
def PN.val : PN → String
  | .mk _ v _ => v

/-- Child list of a node (the field `C`). -/
def PN.C : PN → List PN
  | .mk _ _ c => c

theorem PN.eta (n : PN) : PN.mk n.kind n.val n.C = n := by
  cases n
  rfl

/-- Number of nodes in a forest, the termination measure for evaluation. -/
def sizeList : List PN → ℕ
  | [] => 0
  | PN.mk _ _ C :: xs => 1 + sizeList C + sizeList xs

/-- Number of nodes in a tree. -/
def PN.size (n : PN) : ℕ := sizeList [n]

theorem PN.size_mk (k v : String) (C : List PN) :
    PN.size (PN.mk k v C) = 1 + sizeList C := by
  simp [PN.size, sizeList]

theorem sizeList_cons (n : PN) (xs : List PN) :
    sizeList (n :: xs) = PN.size n + sizeList xs := by
  cases n
  simp [PN.size, sizeList]

theorem sizeList_append (l1 l2 : List PN) :
    sizeList (l1 ++ l2) = sizeList l1 + sizeList l2 := by
  induction l1 with
  | nil => simp [sizeList]
  | cons x xs ih =>
    cases x
    simp [sizeList, ih]
    omega

theorem PN.size_pos (n : PN) : 0 < PN.size n := by
  cases n
  simp [PN.size, sizeList]

theorem size_le_sizeList_of_mem {n : PN} {l : List PN} (h : n ∈ l) :
    PN.size n ≤ sizeList l := by
  induction l with
  | nil => cases h
  | cons x xs ih =>
    rcases List.mem_cons.mp h with h1 | h2
    · subst h1
      rw [sizeList_cons]
      omega
    · have := ih h2
      rw [sizeList_cons]
      have := PN.size_pos x
      omega

/-- Precision float (`Pfloat`): a value paired with a decimal-digit count. -/
structure Pfloat where
  V : ℚ
  P : ℤ
deriving DecidableEq, Repr

/-- `maxPrecision`: maximum of the operand precisions and `0`
(the Go loop starts its accumulator at `0`). -/
def maxPrecision (pfs : List Pfloat) : ℤ :=
  pfs.foldl (fun m p => if p.P > m then p.P else m) 0

/-- Digit value of a character, `none` for a non-digit. -/
def natOfDigits (ds : List Char) : ℕ :=
  ds.foldl (fun a c => 10 * a + (c.toNat - 48)) 0

/-- Modelled from the spec: `strconv.ParseFloat` (external Go standard
library, out of scope per spec section 1) restricted to plain decimal
numerals `digits`, `digits.digits`, `digits.` and `.digits` — the only
shapes the lexer's `int`/`dec` tokens can produce.  Returns `none` where
Go returns an error. -/
def parseUnsigned (cs : List Char) : Option ℚ :=
  let ip := cs.takeWhile Char.isDigit
  let rest := cs.dropWhile Char.isDigit
  match rest with
  | [] => if ip.isEmpty then none else some (natOfDigits ip)
  | '.' :: fp =>
    if (!ip.isEmpty || !fp.isEmpty) && fp.all Char.isDigit then
      some ((natOfDigits ip : ℚ) + (natOfDigits fp : ℚ) / (10 : ℚ) ^ fp.length)
    else none
  | _ => none

/-- Modelled from the spec: signed `strconv.ParseFloat`, see
`parseUnsigned`. -/
def parseFloatQ (s : String) : Option ℚ :=
  match s.data with
  | '+' :: cs => parseUnsigned cs
  | '-' :: cs => (parseUnsigned cs).map Neg.neg
  | cs => parseUnsigned cs

/-- The value the evaluator actually uses: `f, _ := strconv.ParseFloat(...)`
discards the error, leaving `f = 0` on malformed input. -/
def parseFloat (s : String) : ℚ := (parseFloatQ s).getD 0

/-- Truncation toward zero, as Go's `math.Trunc` on exact values. -/
def ratTrunc (q : ℚ) : ℤ := if q < 0 then -((-q).floor) else q.floor

/-- Go `math.Mod(x, y) = x - Trunc(x/y)*y` on exact values (`y = 0`, which
gives NaN in Go, is mapped to `0` in the rational model). -/
def ratMod (x y : ℚ) : ℚ := if y = 0 then 0 else x - y * (ratTrunc (x / y) : ℚ)

/-- Go `math.Pow` on exact values, defined for integer exponents (the only
case expressible in `ℚ`; claims about `^` concern only precision). -/
def ratPow (x y : ℚ) : ℚ := if y.den = 1 then x ^ y.num else 0

/-- `evalUop` after its operand has been evaluated: negation and absolute
value keep the operand precision (unknown operator values leave the operand
unchanged, as the Go `switch` without a default does). -/
def evalUop (ae : Pfloat) (v : String) : Pfloat :=
  if v = "--" then ⟨-ae.V, ae.P⟩
  else if v = "abs" then (if ae.V < 0 then ⟨-ae.V, ae.P⟩ else ae)
  else ae

/-- `evalBop` after its operands have been evaluated left-to-right: the
result precision is `maxPrecision` of the operands for every operator, the
value is given by the operator switch (`v` stays `0` for an unmatched
operator value). -/
def evalBop (ae be : Pfloat) (opv : String) : Pfloat :=
  let p := maxPrecision [ae, be]
  let v : ℚ :=
    match opv with
    | "+" => ae.V + be.V
    | "*" => ae.V * be.V
    | "/" => ae.V / be.V
    | "-" => ae.V - be.V
    | "^" => ratPow ae.V be.V
    | "%" => ratMod ae.V be.V
    | ">" => if ae.V > be.V then 1 else 0
    | "<" => if ae.V < be.V then 1 else 0
    | "=" => if ae.V = be.V then 1 else 0
    | "cmpr" => if ae.V > be.V then 1 else if ae.V < be.V then -1 else 0
    | _ => 0
  ⟨v, p⟩

/-- `evalSop` over the already-evaluated sub-sequence: aggregates
`sum`, `avg`, `len`, `min`, `max`, `last`, `first`. -/
def evalSop (stack : List Pfloat) (opv : String) : Pfloat :=
  if opv = "sum" then ⟨stack.foldl (fun a p => a + p.V) 0, maxPrecision stack⟩
  else if opv = "avg" then
    ⟨if stack.length > 0 then
        (stack.foldl (fun a p => a + p.V) 0) / (stack.length : ℚ)
      else stack.foldl (fun a p => a + p.V) 0,
      maxPrecision stack⟩
  else if opv = "len" then ⟨(stack.length : ℚ), 0⟩
  else if opv = "min" then
    match stack with
    | [] => ⟨0, 0⟩
    | x :: xs => xs.foldl (fun v p => if p.V < v.V then p else v) x
  else if opv = "max" then
    match stack with
    | [] => ⟨0, 0⟩
    | x :: xs => xs.foldl (fun v p => if p.V > v.V then p else v) x
  else if opv = "last" then
    match stack with
    | [] => ⟨0, 0⟩
    | x :: _ => x
  else if opv = "first" then (stack.getLast?).getD ⟨0, 0⟩
  else ⟨0, 0⟩

/-- `evalSmp`: destructive stack manipulation on the element list of the
enclosing node — `swap` exchanges the last two elements, `drop` removes the
last element, `clear` empties the list. -/
def evalSmp (v : String) (C : List PN) : List PN :=
  if v = "swap" then
    match C.reverse with
    | b :: a :: rest => (a :: b :: rest).reverse
    | _ => C
  else if v = "drop" then C.dropLast
  else if v = "clear" then []
  else C

theorem PN.size_eq (n : PN) : PN.size n = 1 + sizeList n.C := by
  cases n
  simp [PN.size_mk, PN.C]

theorem sizeList_of_getLast? :
    ∀ {l : List PN} {b : PN}, l.getLast? = some b →
      sizeList l = sizeList l.dropLast + PN.size b := by
  intro l
  induction l with
  | nil => intro b h; simp at h
  | cons x xs ih =>
    intro b h
    cases xs with
    | nil =>
      simp [List.getLast?] at h
      subst h
      simp [sizeList_cons, sizeList]
    | cons y ys =>
      rw [List.getLast?_cons_cons] at h
      have h2 := ih h
      rw [List.dropLast_cons_of_ne_nil (by simp),
        sizeList_cons x (y :: ys), sizeList_cons x ((y :: ys).dropLast), h2]
      omega

theorem sizeList_eraseIdx :
    ∀ {l : List PN} {i : ℕ}, i < l.length →
      sizeList (l.eraseIdx i) + 1 ≤ sizeList l := by
  intro l
  induction l with
  | nil => intro i h; simp at h
  | cons x xs ih =>
    intro i h
    cases i with
    | zero =>
      have := PN.size_pos x
      simp [List.eraseIdx, sizeList_cons]
      omega
    | succ j =>
      have hj : j < xs.length := by simpa using h
      have := ih hj
      simp [List.eraseIdx, sizeList_cons]
      omega

theorem size_promote (k v : String) {D : List PN} {b : PN}
    (h : D.getLast? = some b) :
    PN.size (PN.mk k v (D.dropLast ++ b.C)) = sizeList D := by
  rw [PN.size_mk, sizeList_append, sizeList_of_getLast? h, PN.size_eq b]
  omega

theorem sizeList_reverse (l : List PN) : sizeList l.reverse = sizeList l := by
  induction l with
  | nil => rfl
  | cons x xs ih =>
    rw [List.reverse_cons, sizeList_append, sizeList_cons, sizeList_cons, ih]
    simp [sizeList]
    omega

theorem sizeList_dropLast_le (l : List PN) : sizeList l.dropLast ≤ sizeList l := by
  cases hl : l.getLast? with
  | none =>
    rcases l with _ | ⟨x, xs⟩
    · simp
    · simp [List.getLast?_eq_none_iff] at hl
  | some b =>
    rw [sizeList_of_getLast? hl]
    omega

theorem sizeList_evalSmp (v : String) (C : List PN) :
    sizeList (evalSmp v C) ≤ sizeList C := by
  rw [evalSmp]
  split_ifs
  · split
    · rename_i b a rest hrev
      have hC : C = (b :: a :: rest).reverse := by
        rw [← hrev, List.reverse_reverse]
      rw [hC, sizeList_reverse, sizeList_reverse, sizeList_cons, sizeList_cons,
        sizeList_cons, sizeList_cons]
      omega
    · exact le_refl _
  · exact sizeList_dropLast_le C
  · simp [sizeList]
  · exact le_refl _

mutual

/-- `evalStack`: evaluates a canonical node to the ordered result sequence.
The `"?"` arm is the lazy ternary: evaluate the last child (the condition),
remove it, drop the unselected branch (`RemoveChild(-2)` when the condition
is positive, `RemoveChild(-1)` otherwise), promote the surviving last child
in place of the node, and recurse.  `Child`/`RemoveChild`/`PromoteChild`
are methods of the repository's `tree` package (not under `src/`), modelled
from the spec as removal/promotion on the ordered child list, with `none`
for an out-of-range index (a Go slice panic). -/
def evalStack (n : PN) : Option (List Pfloat) :=
  match n with
  | ⟨"?", _, C⟩ =>
    match hC : C.getLast? with
    | none => none
    | some cond =>
      match evalE cond with
      | none => none
      | some cv =>
        if hk : (if cv.V > 0 then 2 else 1) ≤ C.dropLast.length then
          match hD : (C.dropLast.eraseIdx
              (C.dropLast.length - (if cv.V > 0 then 2 else 1))).getLast? with
          | none => none
          | some b =>
            evalStack (PN.mk b.kind b.val
              ((C.dropLast.eraseIdx
                (C.dropLast.length - (if cv.V > 0 then 2 else 1))).dropLast ++ b.C))
        else none
  | ⟨"smp", v, C⟩ => evalList (evalSmp v C)
  | ⟨"Stack", _, C⟩ => evalList C
  | m => (evalE m).map (fun p => [p])
termination_by 2 * PN.size n + 1
decreasing_by
  · have h1 := sizeList_of_getLast? hC
    have h2 := PN.size_pos cond
    simp only [PN.size_mk]
    omega
  · simp only [dite_eq_ite] at *
    have hk1 : (1 : ℕ) ≤ (if cv.V > 0 then 2 else 1) := by split <;> omega
    have hi : C.dropLast.length - (if cv.V > 0 then 2 else 1) <
        C.dropLast.length := by omega
    have h1 := sizeList_eraseIdx hi
    have h2 := size_promote b.kind b.val hD
    have h3 := sizeList_of_getLast? hC
    have h4 := PN.size_pos cond
    simp only [PN.size_mk, h2]
    omega
  · have h1 := sizeList_evalSmp v C
    simp only [PN.size_mk]
    omega
  · simp only [PN.size_mk]
    omega
  · omega

/-- `evalE`: evaluates an expression node to a single `Pfloat`.  A `Number`
parses its literal text (two children: integer text plus decimal fragment,
precision `len(dec) - 1`), operator kinds read their children positionally
(`node.C[0]`, `node.C[1]`; a missing child is a Go slice panic, modelled as
`none`), every other node shape yields the zero value. -/
def evalE (n : PN) : Option Pfloat :=
  match n with
  | ⟨"Number", _, [c0]⟩ => some ⟨parseFloat c0.val, 0⟩
  | ⟨"Number", _, [c0, c1]⟩ =>
    some ⟨parseFloat (c0.val ++ c1.val), (c1.val.length : ℤ) - 1⟩
  | ⟨"Number", _, _⟩ => some ⟨0, 0⟩
  | ⟨"uop", v, c0 :: _⟩ => (evalE c0).map (fun ae => evalUop ae v)
  | ⟨"uop", _, []⟩ => none
  | ⟨"bop", v, c0 :: c1 :: _⟩ =>
    match evalE c0, evalE c1 with
    | some ae, some be => some (evalBop ae be v)
    | _, _ => none
  | ⟨"bop", _, _⟩ => none
  | ⟨"sop", v, c0 :: _⟩ => (evalStack c0).map (fun st => evalSop st v)
  | ⟨"sop", _, []⟩ => none
  | _ => some ⟨0, 0⟩
termination_by 2 * PN.size n
decreasing_by
  · simp only [PN.size_mk, sizeList_cons]
    omega
  · simp only [PN.size_mk, sizeList_cons]
    omega
  · simp only [PN.size_mk, sizeList_cons]
    omega
  · simp only [PN.size_mk, sizeList_cons]
    omega

/-- Evaluation of each child of a `Stack`-like node, in order (the Go
loop `for i, ch := range node.C`). -/
def evalList (l : List PN) : Option (List Pfloat) :=
  match l with
  | [] => some []
  | x :: xs =>
    match evalE x, evalList xs with
    | some p, some ps => some (p :: ps)
    | _, _ => none
termination_by 2 * sizeList l + 1
decreasing_by
  · simp only [sizeList_cons]
    omega
  · have h1 := PN.size_pos x
    simp only [sizeList_cons]
    omega

end

/-! ### The canonicalizer

The reduction table `rdcr` and the `stack` reduction function are in the
source; the tree-rewriting primitives they call (`ChildAt`,
`PromoteChildrenOf`, `PromoteChild`, `PromoteSingleChild`,
`ReplaceWithChild` and the bottom-up driver `Reduce` of the repository's
`tree` package) are not under `src/` and are modelled from the spec. -/

/-- Modelled from the spec: resolution of a (possibly negative) child
index against a child list — negative indices count from the end, an
index outside the list is `none`. -/
def resolveIdx (len : ℕ) (i : ℤ) : Option ℕ :=
  let j : ℤ := if i < 0 then (len : ℤ) + i else i
  if 0 ≤ j ∧ j < (len : ℤ) then some j.toNat else none

/-- Modelled from the spec: `ChildAt(i, kinds...)` — whether the child at
index `i` exists and has one of the given kinds. -/
def PN.childAt (n : PN) (i : ℤ) (kinds : List String) : Bool :=
  match resolveIdx n.C.length i with
  | some j =>
    match n.C.get? j with
    | some c => kinds.contains c.kind
    | none => false
  | none => false

/-- Modelled from the spec: `PromoteChildrenOf(i)` — splice the children
of the child at index `i` into the node's child list in its place
(the spec's splicing of a sub-sequence at its position). -/
def PN.promoteChildrenOf (n : PN) (i : ℤ) : PN :=
  match resolveIdx n.C.length i with
  | some j =>
    match n.C.get? j with
    | some c => PN.mk n.kind n.val (n.C.take j ++ c.C ++ n.C.drop (j + 1))
    | none => n
  | none => n

/-- Modelled from the spec: `PromoteChild(i)` — the node takes the kind
and value of the child at index `i`, which is removed and replaced by its
own children (the spec's promotion of a child to replace its parent,
keeping the remaining siblings as children). -/
def PN.promoteChild (n : PN) (i : ℤ) : PN :=
  match resolveIdx n.C.length i with
  | some j =>
    match n.C.get? j with
    | some c => PN.mk c.kind c.val (n.C.take j ++ c.C ++ n.C.drop (j + 1))
    | none => n
  | none => n

/-- Modelled from the spec: `PromoteSingleChild` — a wrapper node with
exactly one child collapses into that child; otherwise unchanged. -/
def PN.promoteSingleChild (n : PN) : PN :=
  match n with
  | PN.mk _ _ [c] => c
  | m => m

/-- Modelled from the spec: `ReplaceWithChild(i)` — the node is replaced
wholesale by its child at index `i`. -/
def PN.replaceWithChild (n : PN) (i : ℤ) : PN :=
  match resolveIdx n.C.length i with
  | some j =>
    match n.C.get? j with
    | some c => c
    | none => n
  | none => n

/-- The `stack` reduction of the source: splice a trailing `Stack` child,
then a leading `Stack` child (each checked once, in that order); then
promote a trailing `smp`/`?` child in place of the node, otherwise
collapse a single child. -/
def stackRed (n : PN) : PN :=
  let n1 := if n.childAt (-1) ["Stack"] then n.promoteChildrenOf (-1) else n
  let n2 := if n1.childAt 0 ["Stack"] then n1.promoteChildrenOf 0 else n1
  if n2.childAt (-1) ["smp", "?"] then n2.promoteChild (-1) else n2.promoteSingleChild

/-- The reduction table `rdcr` of the source: `Stack` uses `stackRed`,
the wrapper nonterminals promote their last child, `P` is replaced by its
middle child (the inner `Stack` of `( Stack )`). -/
def applyRed (n : PN) : PN :=
  if n.kind = "Stack" then stackRed n
  else if n.kind = "E" ∨ n.kind = "Bop" ∨ n.kind = "Uop" ∨ n.kind = "Sop" ∨
      n.kind = "Smp" then
    n.promoteChild (-1)
  else if n.kind = "P" then n.replaceWithChild 1
  else n

mutual

/-- Modelled from the spec: the bottom-up reduction driver
(`tree.Reducer.Reduce`) — children are canonicalized innermost-first,
then the node's own kind-specific reduction is applied once. -/
def reduce (n : PN) : PN :=
  match n with
  | PN.mk k v C => applyRed (PN.mk k v (reduceList C))

/-- Canonicalization of a child list, in order. -/
def reduceList (l : List PN) : List PN :=
  match l with
  | [] => []
  | x :: xs => reduce x :: reduceList xs

end

/-! ### Helper constructors for concrete trees. -/

/-- A leaf token node. -/
def tok (k v : String) : PN := PN.mk k v []

/-- A canonical integer-literal node (`Number` with one `int` child), the
shape `E -> Number -> int` reduces to. -/
def numLit (s : String) : PN := ⟨"Number", "", [⟨"int", s, []⟩]⟩

/-- A canonical decimal-literal node (`Number` with an `int` child and a
`dec` child), the shape `E -> Number -> int dec` reduces to. -/
def decLit (s d : String) : PN :=
  ⟨"Number", "", [⟨"int", s, []⟩, ⟨"dec", d, []⟩]⟩

/-! ### Pure facts about `maxPrecision` and the aggregate fold. -/

theorem maxPrecision_step (m : ℤ) (p : Pfloat) :
    (if p.P > m then p.P else m) = max m p.P := by
  split <;> omega

theorem foldr_max_split (l : List Pfloat) :
    ∀ a b : ℤ, l.foldr (fun p acc => max p.P acc) (max a b) =
      max a (l.foldr (fun p acc => max p.P acc) b) := by
  induction l with
  | nil => intro a b; simp
  | cons x xs ih =>
    intro a b
    rw [List.foldr_cons, List.foldr_cons, ih]
    omega

theorem foldl_max_eq (l : List Pfloat) :
    ∀ m : ℤ, l.foldl (fun m p => if p.P > m then p.P else m) m =
      l.foldr (fun p acc => max p.P acc) m := by
  induction l with
  | nil => intro m; rfl
  | cons x xs ih =>
    intro m
    rw [List.foldl_cons, maxPrecision_step, List.foldr_cons, ih,
      max_comm m x.P, foldr_max_split]

theorem maxPrecision_eq (l : List Pfloat) :
    maxPrecision l = (l.map Pfloat.P).foldr max 0 := by
  rw [maxPrecision, foldl_max_eq, List.foldr_map]

theorem foldl_add_eq (l : List Pfloat) :
    ∀ a : ℚ, l.foldl (fun a p => a + p.V) a = a + (l.map Pfloat.V).sum := by
  induction l with
  | nil => intro a; simp
  | cons x xs ih =>
    intro a
    rw [List.foldl_cons, ih, List.map_cons, List.sum_cons]
    ring

/-- C3: the aggregate operator written `last` returns the first element of
the (non-empty) sub-sequence, and the operator written `first` returns the
last element — the surface-name inversion is present in the code. -/
theorem c3_first_last_inversion (x : Pfloat) (l : List Pfloat) :
    evalSop (x :: l) ("last") = x ∧ evalSop (x :: l) ("first") = l.getLastD x := by
  constructor
  · rfl
  · show ((x :: l).getLast?).getD ⟨0, 0⟩ = l.getLastD x
    rw [List.getLast?_cons, Option.getD_some, List.getLastD_eq_getLast?]

/-- The ten binary-operator surface symbols. -/
def bopNames : List String := ["+", "-", "*", "/", "^", "%", ">", "<", "=", "cmpr"]

/-- C4: for every binary operator the result precision is the maximum of
the operand precisions (comparisons included, not reset to 0), and the
comparison operators yield 1 or 0 (`cmpr`: 1, 0 or -1) by value. -/
theorem c4_bop_precision (ae be : Pfloat) (ha : 0 ≤ ae.P) (hb : 0 ≤ be.P) :
    (∀ v ∈ bopNames, (evalBop ae be v).P = max ae.P be.P) ∧
    (evalBop ae be (">")).V = (if ae.V > be.V then 1 else 0) ∧
    (evalBop ae be ("<")).V = (if ae.V < be.V then 1 else 0) ∧
    (evalBop ae be ("=")).V = (if ae.V = be.V then 1 else 0) ∧
    (evalBop ae be ("cmpr")).V =
      (if ae.V > be.V then 1 else if ae.V < be.V then -1 else 0) := by
  have hmax : maxPrecision [ae, be] = max ae.P be.P := by
    simp only [maxPrecision, List.foldl_cons, List.foldl_nil, maxPrecision_step]
    omega
  refine ⟨?_, rfl, rfl, rfl, rfl⟩
  intro v _
  show maxPrecision [ae, be] = max ae.P be.P
  exact hmax

/-- C4 witness at concrete operands. -/
theorem c4_bop_precision_witness :
    0 ≤ ((⟨3, 1⟩ : Pfloat)).P ∧ 0 ≤ ((⟨1 / 2, 0⟩ : Pfloat)).P ∧
      ((∀ v ∈ bopNames,
          (evalBop ⟨3, 1⟩ ⟨1 / 2, 0⟩ v).P = max (1 : ℤ) 0) ∧
        (evalBop (⟨3, 1⟩ : Pfloat) ⟨1 / 2, 0⟩ (">")).V =
          (if (3 : ℚ) > 1 / 2 then 1 else 0) ∧
        (evalBop (⟨3, 1⟩ : Pfloat) ⟨1 / 2, 0⟩ ("<")).V =
          (if (3 : ℚ) < 1 / 2 then 1 else 0) ∧
        (evalBop (⟨3, 1⟩ : Pfloat) ⟨1 / 2, 0⟩ ("=")).V =
          (if (3 : ℚ) = 1 / 2 then 1 else 0) ∧
        (evalBop (⟨3, 1⟩ : Pfloat) ⟨1 / 2, 0⟩ ("cmpr")).V =
          (if (3 : ℚ) > 1 / 2 then 1 else if (3 : ℚ) < 1 / 2 then -1 else 0)) :=
  ⟨by decide, by decide, c4_bop_precision ⟨3, 1⟩ ⟨1 / 2, 0⟩ (by decide) (by decide)⟩

/-- C5: `swap` exchanges the last two elements and is a no-op on fewer
than two, `drop` removes the last element and is a no-op on the empty
list, `clear` always yields the empty list. -/
theorem c5_smp_ops (l : List PN) (a b : PN) :
    evalSmp ("swap") (l ++ [a, b]) = l ++ [b, a] ∧
    (l.length < 2 → evalSmp ("swap") l = l) ∧
    evalSmp ("drop") (l ++ [a]) = l ∧
    evalSmp ("drop") ([] : List PN) = [] ∧
    evalSmp ("clear") l = [] := by
  refine ⟨?_, ?_, ?_, rfl, by simp [evalSmp]⟩
  · rw [evalSmp, if_pos rfl]
    rw [show (l ++ [a, b]).reverse = b :: a :: l.reverse by simp]
    simp
  · intro hl
    rw [evalSmp, if_pos rfl]
    rcases l with _ | ⟨x, _ | ⟨y, rest⟩⟩
    · rfl
    · rfl
    · simp only [List.length_cons] at hl
      omega
  · rw [evalSmp, if_neg (by decide), if_pos rfl]
    exact List.dropLast_concat

/-- C5 witness at a concrete two-element stack. -/
theorem c5_smp_ops_witness :
    evalSmp ("swap") [(⟨"int", "1", []⟩ : PN), ⟨"int", "2", []⟩] =
      [(⟨"int", "2", []⟩ : PN), ⟨"int", "1", []⟩] ∧
      ([] : List PN).length < 2 ∧ evalSmp ("swap") ([] : List PN) = [] :=
  ⟨(c5_smp_ops [] ⟨"int", "1", []⟩ ⟨"int", "2", []⟩).1, by simp,
    (c5_smp_ops [] ⟨"int", "1", []⟩ ⟨"int", "2", []⟩).2.1 (by simp)⟩

/-- Selection behaviour of the `min` fold: the result is an element of the
list, it has minimal value, and every element strictly before it is
strictly greater (so the earliest minimal element, precision included, is
returned). -/
theorem minFold_spec (l : List Pfloat) :
    ∀ x : Pfloat, ∃ i : ℕ,
      (x :: l).get? i = some (l.foldl (fun v p => if p.V < v.V then p else v) x) ∧
      (∀ j q, (x :: l).get? j = some q →
        (l.foldl (fun v p => if p.V < v.V then p else v) x).V ≤ q.V) ∧
      (∀ j q, j < i → (x :: l).get? j = some q →
        (l.foldl (fun v p => if p.V < v.V then p else v) x).V < q.V) := by
  induction l with
  | nil =>
    intro x
    refine ⟨0, rfl, ?_, ?_⟩
    · intro j q hj
      cases j with
      | zero =>
        simp only [List.get?_cons_zero, Option.some_inj] at hj
        subst hj
        exact le_refl _
      | succ j' => simp at hj
    · intro j q hlt hj
      omega
  | cons y t ih =>
    intro x
    by_cases hxy : y.V < x.V
    · obtain ⟨i', h1, h2, h3⟩ := ih y
      have hfold : (y :: t).foldl (fun v p => if p.V < v.V then p else v) x =
          t.foldl (fun v p => if p.V < v.V then p else v) y := by
        rw [List.foldl_cons]
        simp only [if_pos hxy]
      rw [hfold]
      refine ⟨i' + 1, by simpa using h1, ?_, ?_⟩
      · intro j q hj
        cases j with
        | zero =>
          simp only [List.get?_cons_zero, Option.some_inj] at hj
          subst hj
          exact le_trans (h2 0 y rfl) (le_of_lt hxy)
        | succ j' => exact h2 j' q (by simpa using hj)
      · intro j q hlt hj
        cases j with
        | zero =>
          simp only [List.get?_cons_zero, Option.some_inj] at hj
          subst hj
          exact lt_of_le_of_lt (h2 0 y rfl) hxy
        | succ j' => exact h3 j' q (by omega) (by simpa using hj)
    · obtain ⟨i', h1, h2, h3⟩ := ih x
      have hfold : (y :: t).foldl (fun v p => if p.V < v.V then p else v) x =
          t.foldl (fun v p => if p.V < v.V then p else v) x := by
        rw [List.foldl_cons]
        simp only [if_neg hxy]
      rw [hfold]
      have hxyle : x.V ≤ y.V := le_of_not_lt hxy
      cases i' with
      | zero =>
        refine ⟨0, h1, ?_, ?_⟩
        · intro j q hj
          cases j with
          | zero => exact h2 0 q hj
          | succ j' =>
            cases j' with
            | zero =>
              simp only [List.get?_cons_succ, List.get?_cons_zero,
                Option.some_inj] at hj
              subst hj
              exact le_trans (h2 0 x rfl) hxyle
            | succ j2 => exact h2 (j2 + 1) q (by simpa using hj)
        · intro j q hlt hj
          omega
      | succ k =>
        refine ⟨k + 2, by simpa using h1, ?_, ?_⟩
        · intro j q hj
          cases j with
          | zero => exact h2 0 q hj
          | succ j' =>
            cases j' with
            | zero =>
              simp only [List.get?_cons_succ, List.get?_cons_zero,
                Option.some_inj] at hj
              subst hj
              exact le_trans (h2 0 x rfl) hxyle
            | succ j2 => exact h2 (j2 + 1) q (by simpa using hj)
        · intro j q hlt hj
          cases j with
          | zero =>
            exact h3 0 q (by omega) hj
          | succ j' =>
            cases j' with
            | zero =>
              simp only [List.get?_cons_succ, List.get?_cons_zero,
                Option.some_inj] at hj
              subst hj
              exact lt_of_lt_of_le (h3 0 x (by omega) rfl) hxyle
            | succ j2 => exact h3 (j2 + 1) q (by omega) (by simpa using hj)

/-- Selection behaviour of the `max` fold, dual to `minFold_spec`. -/
theorem maxFold_spec (l : List Pfloat) :
    ∀ x : Pfloat, ∃ i : ℕ,
      (x :: l).get? i = some (l.foldl (fun v p => if p.V > v.V then p else v) x) ∧
      (∀ j q, (x :: l).get? j = some q →
        q.V ≤ (l.foldl (fun v p => if p.V > v.V then p else v) x).V) ∧
      (∀ j q, j < i → (x :: l).get? j = some q →
        q.V < (l.foldl (fun v p => if p.V > v.V then p else v) x).V) := by
  induction l with
  | nil =>
    intro x
    refine ⟨0, rfl, ?_, ?_⟩
    · intro j q hj
      cases j with
      | zero =>
        simp only [List.get?_cons_zero, Option.some_inj] at hj
        subst hj
        exact le_refl _
      | succ j' => simp at hj
    · intro j q hlt hj
      omega
  | cons y t ih =>
    intro x
    by_cases hxy : y.V > x.V
    · obtain ⟨i', h1, h2, h3⟩ := ih y
      have hfold : (y :: t).foldl (fun v p => if p.V > v.V then p else v) x =
          t.foldl (fun v p => if p.V > v.V then p else v) y := by
        rw [List.foldl_cons]
        simp only [if_pos hxy]
      rw [hfold]
      refine ⟨i' + 1, by simpa using h1, ?_, ?_⟩
      · intro j q hj
        cases j with
        | zero =>
          simp only [List.get?_cons_zero, Option.some_inj] at hj
          subst hj
          exact le_trans (le_of_lt hxy) (h2 0 y rfl)
        | succ j' => exact h2 j' q (by simpa using hj)
      · intro j q hlt hj
        cases j with
        | zero =>
          simp only [List.get?_cons_zero, Option.some_inj] at hj
          subst hj
          exact lt_of_lt_of_le hxy (h2 0 y rfl)
        | succ j' => exact h3 j' q (by omega) (by simpa using hj)
    · obtain ⟨i', h1, h2, h3⟩ := ih x
      have hfold : (y :: t).foldl (fun v p => if p.V > v.V then p else v) x =
          t.foldl (fun v p => if p.V > v.V then p else v) x := by
        rw [List.foldl_cons]
        simp only [if_neg hxy]
      rw [hfold]
      have hxyle : y.V ≤ x.V := le_of_not_lt hxy
      cases i' with
      | zero =>
        refine ⟨0, h1, ?_, ?_⟩
        · intro j q hj
          cases j with
          | zero => exact h2 0 q hj
          | succ j' =>
            cases j' with
            | zero =>
              simp only [List.get?_cons_succ, List.get?_cons_zero,
                Option.some_inj] at hj
              subst hj
              exact le_trans hxyle (h2 0 x rfl)
            | succ j2 => exact h2 (j2 + 1) q (by simpa using hj)
        · intro j q hlt hj
          omega
      | succ k =>
        refine ⟨k + 2, by simpa using h1, ?_, ?_⟩
        · intro j q hj
          cases j with
          | zero => exact h2 0 q hj
          | succ j' =>
            cases j' with
            | zero =>
              simp only [List.get?_cons_succ, List.get?_cons_zero,
                Option.some_inj] at hj
              subst hj
              exact le_trans hxyle (h2 0 x rfl)
            | succ j2 => exact h2 (j2 + 1) q (by simpa using hj)
        · intro j q hlt hj
          cases j with
          | zero =>
            exact h3 0 q (by omega) hj
          | succ j' =>
            cases j' with
            | zero =>
              simp only [List.get?_cons_succ, List.get?_cons_zero,
                Option.some_inj] at hj
              subst hj
              exact lt_of_le_of_lt hxyle (h3 0 x (by omega) rfl)
            | succ j2 => exact h3 (j2 + 1) q (by omega) (by simpa using hj)

/-- C6: `sum`/`avg` carry the maximum precision over the elements, `avg`
divides the sum by the element count (0 for an empty sequence), `len`
yields the count with precision 0, `min`/`max` select by numeric value and
yield the zero value on empty input. -/
theorem c6_sop_aggregates (l : List Pfloat) :
    (evalSop l ("sum")).P = (l.map Pfloat.P).foldr max 0 ∧
    (evalSop l ("sum")).V = (l.map Pfloat.V).sum ∧
    (evalSop l ("avg")).P = (l.map Pfloat.P).foldr max 0 ∧
    (evalSop l ("avg")).V = (l.map Pfloat.V).sum / l.length ∧
    evalSop l ("len") = ⟨(l.length : ℚ), 0⟩ ∧
    evalSop ([] : List Pfloat) ("min") = ⟨0, 0⟩ ∧
    evalSop ([] : List Pfloat) ("max") = ⟨0, 0⟩ ∧
    (l ≠ [] → evalSop l ("min") ∈ l ∧ ∀ p ∈ l, (evalSop l ("min")).V ≤ p.V) ∧
    (l ≠ [] → evalSop l ("max") ∈ l ∧ ∀ p ∈ l, p.V ≤ (evalSop l ("max")).V) := by
  refine ⟨maxPrecision_eq l, ?_, maxPrecision_eq l, ?_, rfl, rfl, rfl, ?_, ?_⟩
  · show (l.foldl (fun a p => a + p.V) 0) = (l.map Pfloat.V).sum
    rw [foldl_add_eq]
    ring
  · show (if l.length > 0 then
        (l.foldl (fun a p => a + p.V) 0) / (l.length : ℚ)
      else l.foldl (fun a p => a + p.V) 0) = (l.map Pfloat.V).sum / l.length
    rw [foldl_add_eq]
    rcases l with _ | ⟨x, xs⟩
    · simp
    · simp
  · rcases l with _ | ⟨x, xs⟩
    · intro h; exact absurd rfl h
    · intro _
      obtain ⟨i, h1, h2, h3⟩ := minFold_spec xs x
      constructor
      · exact List.get?_mem h1
      · intro p hp
        obtain ⟨j, hj⟩ := List.get?_of_mem hp
        exact h2 j p hj
  · rcases l with _ | ⟨x, xs⟩
    · intro h; exact absurd rfl h
    · intro _
      obtain ⟨i, h1, h2, h3⟩ := maxFold_spec xs x
      constructor
      · exact List.get?_mem h1
      · intro p hp
        obtain ⟨j, hj⟩ := List.get?_of_mem hp
        exact h2 j p hj

/-- C6 witness at a concrete two-element sequence. -/
theorem c6_sop_aggregates_witness :
    ([(⟨3 / 2, 1⟩ : Pfloat), ⟨2, 0⟩] ≠ []) ∧
      (evalSop [(⟨3 / 2, 1⟩ : Pfloat), ⟨2, 0⟩] ("min") ∈
          [(⟨3 / 2, 1⟩ : Pfloat), ⟨2, 0⟩] ∧
        ∀ p ∈ [(⟨3 / 2, 1⟩ : Pfloat), ⟨2, 0⟩],
          (evalSop [(⟨3 / 2, 1⟩ : Pfloat), ⟨2, 0⟩] ("min")).V ≤ p.V) :=
  ⟨by simp, (c6_sop_aggregates [⟨3 / 2, 1⟩, ⟨2, 0⟩]).2.2.2.2.2.2.2.1 (by simp)⟩

/-- C10: `min` (resp. `max`) returns the complete value-precision pair of
the earliest element whose value is minimal (resp. maximal): the result is
an element of the sequence, its value bounds every element, and every
strictly earlier element is strictly worse, so ties keep the first
element in sequence order and the result's precision is that single
element's precision. -/
theorem c10_minmax_earliest (x : Pfloat) (l : List Pfloat) :
    (∃ i : ℕ, (x :: l).get? i = some (evalSop (x :: l) ("min")) ∧
      (∀ j q, (x :: l).get? j = some q → (evalSop (x :: l) ("min")).V ≤ q.V) ∧
      (∀ j q, j < i → (x :: l).get? j = some q →
        (evalSop (x :: l) ("min")).V < q.V)) ∧
    (∃ i : ℕ, (x :: l).get? i = some (evalSop (x :: l) ("max")) ∧
      (∀ j q, (x :: l).get? j = some q → q.V ≤ (evalSop (x :: l) ("max")).V) ∧
      (∀ j q, j < i → (x :: l).get? j = some q →
        q.V < (evalSop (x :: l) ("max")).V)) :=
  ⟨minFold_spec l x, maxFold_spec l x⟩

/-- C10 witness: a tie on the minimal (resp. maximal) value keeps the
earliest element together with its own precision. -/
theorem c10_minmax_earliest_witness :
    evalSop [(⟨1, 2⟩ : Pfloat), ⟨1, 0⟩, ⟨5, 3⟩] ("min") = ⟨1, 2⟩ ∧
      evalSop [(⟨5, 7⟩ : Pfloat), ⟨1, 0⟩, ⟨5, 3⟩] ("max") = ⟨5, 7⟩ ∧
      (∃ i : ℕ,
        ([(⟨1, 2⟩ : Pfloat), ⟨1, 0⟩, ⟨5, 3⟩]).get? i =
          some (evalSop [(⟨1, 2⟩ : Pfloat), ⟨1, 0⟩, ⟨5, 3⟩] ("min")) ∧
        (∀ j q, ([(⟨1, 2⟩ : Pfloat), ⟨1, 0⟩, ⟨5, 3⟩]).get? j = some q →
          (evalSop [(⟨1, 2⟩ : Pfloat), ⟨1, 0⟩, ⟨5, 3⟩] ("min")).V ≤ q.V) ∧
        (∀ j q, j < i → ([(⟨1, 2⟩ : Pfloat), ⟨1, 0⟩, ⟨5, 3⟩]).get? j = some q →
          (evalSop [(⟨1, 2⟩ : Pfloat), ⟨1, 0⟩, ⟨5, 3⟩] ("min")).V < q.V)) :=
  ⟨by decide, by decide, (c10_minmax_earliest ⟨1, 2⟩ [⟨1, 0⟩, ⟨5, 3⟩]).1⟩

/-! ### Unfolding lemmas for the evaluator. -/

theorem evalE_numLit (s : String) :
    evalE (numLit s) = some ⟨parseFloat s, 0⟩ := by
  rw [numLit, evalE]
  rfl

theorem evalE_decLit (s d : String) :
    evalE (decLit s d) = some ⟨parseFloat (s ++ d), (d.length : ℤ) - 1⟩ := by
  rw [decLit, evalE]
  rfl

/-- A node whose kind is none of `?`, `smp`, `Stack` is evaluated as the
one-element sequence of its own expression value. -/
theorem evalStack_default (n : PN) (h1 : n.kind ≠ "?") (h2 : n.kind ≠ "smp")
    (h3 : n.kind ≠ "Stack") :
    evalStack n = (evalE n).map (fun p => [p]) := by
  rw [evalStack]
  case x =>
    intro val C h
    exact absurd (show n.kind = "?" by rw [h]; rfl) h1
  case x_1 =>
    intro val C h
    exact absurd (show n.kind = "smp" by rw [h]; rfl) h2
  case x_2 =>
    intro val C h
    exact absurd (show n.kind = "Stack" by rw [h]; rfl) h3

/-- C1: lazy ternary selection.  For a canonical ternary node with the
three children `branchA branchB condition`, the condition is evaluated
first; when its value is strictly positive the whole node evaluates
exactly as `branchB` alone, otherwise exactly as `branchA` alone.  The
result does not depend on the unselected branch in any way (it is absent
from the right-hand side), so no side effect of the unselected branch — a
`drop` included — can be observed; and a condition whose evaluation
panics aborts the whole evaluation before any branch is looked at. -/
theorem c1_ternary (A B C : PN) (v : String) :
    (∀ c : Pfloat, evalE C = some c →
      evalStack (⟨"?", v, [A, B, C]⟩ : PN) =
        if c.V > 0 then evalStack B else evalStack A) ∧
    (evalE C = none → evalStack (⟨"?", v, [A, B, C]⟩ : PN) = none) := by
  constructor
  · intro c h
    rw [evalStack]
    split
    · rename_i heq
      exact absurd heq (by simp)
    · rename_i cond heq
      have hgl : ([A, B, C] : List PN).getLast? = some C := rfl
      rw [hgl] at heq
      have hc2 : C = cond := Option.some_inj.mp heq
      subst hc2
      rw [h]
      by_cases hc : c.V > 0
      · simp only [hc, if_true]
        rw [dif_pos (by simp)]
        split
        · rename_i heq2
          rw [if_pos hc] at heq2
          have heq3 : (some B : Option PN) = none := heq2
          exact absurd heq3 (by simp)
        · rename_i b heq2
          rw [if_pos hc] at heq2
          have heq3 : (some B : Option PN) = some b := heq2
          have hb : B = b := Option.some_inj.mp heq3
          subst hb
          simp [PN.eta]
      · simp only [hc, if_false]
        rw [dif_pos (by simp)]
        split
        · rename_i heq2
          rw [if_neg hc] at heq2
          have heq3 : (some A : Option PN) = none := heq2
          exact absurd heq3 (by simp)
        · rename_i b heq2
          rw [if_neg hc] at heq2
          have heq3 : (some A : Option PN) = some b := heq2
          have hb : A = b := Option.some_inj.mp heq3
          subst hb
          simp [PN.eta]
  · intro h
    rw [evalStack]
    split
    · rfl
    · rename_i cond heq
      have hgl : ([A, B, C] : List PN).getLast? = some C := rfl
      rw [hgl] at heq
      have hc2 : C = cond := Option.some_inj.mp heq
      subst hc2
      rw [h]

/-- C1 witness: `1 2 3 ?` selects the second branch. -/
theorem c1_ternary_witness :
    evalE (numLit ("3")) = some ⟨3, 0⟩ ∧
      evalStack (⟨"?", "?", [numLit ("1"), numLit ("2"), numLit ("3")]⟩ : PN) =
        (if (⟨3, 0⟩ : Pfloat).V > 0 then evalStack (numLit ("2"))
          else evalStack (numLit ("1"))) := by
  have h : evalE (numLit ("3")) = some ⟨3, 0⟩ := by
    rw [evalE_numLit]
    decide
  exact ⟨h, (c1_ternary (numLit ("1")) (numLit ("2")) (numLit ("3")) ("?")).1 _ h⟩

/-- C8 counterexample: the claim says the evaluator never raises on any
node shape, but a `bop` node with no children makes the Go code index
`node.C[0]` out of range — a runtime panic (modelled as `none`), not a
silent `{0, 0}`. -/
theorem c8_never_raises_cex : evalE (⟨"bop", "+", []⟩ : PN) = none := by
  simp [evalE]

/-- C8 amended: `Number` nodes never raise — a literal that fails to parse
yields value `0` (precision `0` in the one-child integer form, fractional
digit count in the two-child decimal form, so not always the zero value
`{0, 0}`), and a `Number` with zero or three-or-more children yields
`{0, 0}` — but operator nodes (`uop`, `bop`, `sop`) that lack an expected
child panic (index out of range) instead of substituting zero. -/
theorem c8_zero_substitution :
    (∀ s : String, parseFloatQ s = none → evalE (numLit s) = some ⟨0, 0⟩) ∧
    (∀ s d : String, parseFloatQ (s ++ d) = none →
      evalE (decLit s d) = some ⟨0, (d.length : ℤ) - 1⟩) ∧
    (∀ v : String, evalE (⟨"Number", v, []⟩ : PN) = some ⟨0, 0⟩) ∧
    (∀ (v : String) (c1 c2 c3 : PN) (r : List PN),
      evalE (⟨"Number", v, c1 :: c2 :: c3 :: r⟩ : PN) = some ⟨0, 0⟩) ∧
    (∀ v : String, evalE (⟨"uop", v, []⟩ : PN) = none) ∧
    (∀ v : String, evalE (⟨"bop", v, []⟩ : PN) = none) ∧
    (∀ (v : String) (c : PN), evalE (⟨"bop", v, [c]⟩ : PN) = none) ∧
    (∀ v : String, evalE (⟨"sop", v, []⟩ : PN) = none) := by
  refine ⟨?_, ?_, ?_, ?_, ?_, ?_, ?_, ?_⟩
  · intro s h
    rw [evalE_numLit, parseFloat, h]
    rfl
  · intro s d h
    rw [evalE_decLit, parseFloat, h]
    rfl
  · intro v
    simp [evalE]
  · intro v c1 c2 c3 r
    simp [evalE]
  · intro v
    simp [evalE]
  · intro v
    simp [evalE]
  · intro v c
    simp [evalE]
  · intro v
    simp [evalE]

/-- C8 witness: a malformed one-child literal gives `{0, 0}`; a malformed
two-child literal keeps the fractional digit count as precision. -/
theorem c8_zero_substitution_witness :
    parseFloatQ ("abc") = none ∧ evalE (numLit ("abc")) = some ⟨0, 0⟩ ∧
      parseFloatQ ("x" ++ ".5") = none ∧
      evalE (decLit ("x") (".5")) = some ⟨0, (String.length (".5") : ℤ) - 1⟩ :=
  ⟨by decide, c8_zero_substitution.1 ("abc") (by decide), by decide,
    c8_zero_substitution.2.1 ("x") (".5") (by decide)⟩

/-! ### Digit strings and literal parsing (for C7). -/

/-- The character of a decimal digit. -/
def digitChar (d : ℕ) : Char := Char.ofNat (48 + d)

/-- The string spelling a digit sequence. -/
def digitsStr (ds : List ℕ) : String := ⟨ds.map digitChar⟩

/-- The natural number denoted by a most-significant-first digit list. -/
def ofDigits (ds : List ℕ) : ℕ := ds.foldl (fun a d => 10 * a + d) 0

theorem digitChar_isDigit {d : ℕ} (h : d < 10) : (digitChar d).isDigit = true := by
  interval_cases d <;> decide

theorem digitChar_toNat {d : ℕ} (h : d < 10) : (digitChar d).toNat - 48 = d := by
  interval_cases d <;> decide

theorem takeWhile_digits_append (cs rest : List Char)
    (h : ∀ c ∈ cs, c.isDigit = true)
    (h2 : ∀ r rs, rest = r :: rs → r.isDigit = false) :
    (cs ++ rest).takeWhile Char.isDigit = cs ∧
      (cs ++ rest).dropWhile Char.isDigit = rest := by
  induction cs with
  | nil =>
    cases rest with
    | nil => exact ⟨rfl, rfl⟩
    | cons r rs =>
      have := h2 r rs rfl
      constructor
      · simp [List.takeWhile, this]
      · simp [List.dropWhile, this]
  | cons c cs ih =>
    have hc : c.isDigit = true := h c (by simp)
    have ih2 := ih (fun x hx => h x (by simp [hx]))
    constructor
    · simp [List.takeWhile, hc, ih2.1]
    · simp [List.dropWhile, hc, ih2.2]

theorem foldl_digits (ds : List ℕ) (h : ∀ d ∈ ds, d < 10) :
    ∀ a : ℕ, (ds.map digitChar).foldl (fun a c => 10 * a + (c.toNat - 48)) a =
      ds.foldl (fun a d => 10 * a + d) a := by
  induction ds with
  | nil => intro a; rfl
  | cons d t ih =>
    intro a
    rw [List.map_cons, List.foldl_cons, List.foldl_cons,
      digitChar_toNat (h d (by simp))]
    exact ih (fun x hx => h x (by simp [hx])) _

theorem natOfDigits_map (ds : List ℕ) (h : ∀ d ∈ ds, d < 10) :
    natOfDigits (ds.map digitChar) = ofDigits ds :=
  foldl_digits ds h 0

theorem parseUnsigned_digits (ds : List ℕ) (h1 : ds ≠ [])
    (h2 : ∀ d ∈ ds, d < 10) :
    parseUnsigned (ds.map digitChar) = some (ofDigits ds) := by
  have hall : ∀ c ∈ ds.map digitChar, c.isDigit = true := by
    intro c hc
    obtain ⟨d, hd, rfl⟩ := List.mem_map.mp hc
    exact digitChar_isDigit (h2 d hd)
  have htw := takeWhile_digits_append (ds.map digitChar) [] (by simpa using hall)
    (by intro r rs h; cases h)
  rw [parseUnsigned]
  simp only [List.append_nil] at htw
  rw [htw.1, htw.2]
  have hne : (ds.map digitChar).isEmpty = false := by
    cases ds with
    | nil => exact absurd rfl h1
    | cons d t => rfl
  simp only [hne]
  rw [natOfDigits_map ds h2]
  rfl

theorem parseUnsigned_decimal (ds fs : List ℕ) (h1 : ds ≠ [])
    (h2 : ∀ d ∈ ds, d < 10) (h3 : ∀ d ∈ fs, d < 10) :
    parseUnsigned (ds.map digitChar ++ '.' :: fs.map digitChar) =
      some ((ofDigits ds : ℚ) +
        (ofDigits fs : ℚ) / (10 : ℚ) ^ fs.length) := by
  have hall : ∀ c ∈ ds.map digitChar, c.isDigit = true := by
    intro c hc
    obtain ⟨d, hd, rfl⟩ := List.mem_map.mp hc
    exact digitChar_isDigit (h2 d hd)
  have hallf : ∀ c ∈ fs.map digitChar, c.isDigit = true := by
    intro c hc
    obtain ⟨d, hd, rfl⟩ := List.mem_map.mp hc
    exact digitChar_isDigit (h3 d hd)
  have htw := takeWhile_digits_append (ds.map digitChar) ('.' :: fs.map digitChar)
    hall (by intro r rs h; injection h with h4 h5; rw [← h4]; rfl)
  rw [parseUnsigned]
  rw [htw.1, htw.2]
  have hne : (ds.map digitChar).isEmpty = false := by
    cases ds with
    | nil => exact absurd rfl h1
    | cons d t => rfl
  have hfall : (fs.map digitChar).all Char.isDigit = true :=
    List.all_eq_true.mpr hallf
  simp only [hne, hfall, Bool.not_false, Bool.true_or, Bool.and_self, if_true]
  rw [natOfDigits_map ds h2, natOfDigits_map fs h3]
  simp

theorem digitChar_ne_plus {d : ℕ} (h : d < 10) : digitChar d ≠ '+' := by
  interval_cases d <;> decide

theorem digitChar_ne_minus {d : ℕ} (h : d < 10) : digitChar d ≠ '-' := by
  interval_cases d <;> decide

theorem parseFloatQ_cons_neg (cs : List Char) :
    parseFloatQ ⟨'-' :: cs⟩ = (parseUnsigned cs).map Neg.neg := rfl

theorem parseFloatQ_cons_plus (cs : List Char) :
    parseFloatQ ⟨'+' :: cs⟩ = parseUnsigned cs := rfl

theorem parseFloatQ_no_sign (c : Char) (cs : List Char) (h1 : c ≠ '+')
    (h2 : c ≠ '-') : parseFloatQ ⟨c :: cs⟩ = parseUnsigned (c :: cs) := by
  rw [parseFloatQ]
  split
  · rename_i cs2 heq
    injection heq with ha hb
    exact absurd ha h1
  · rename_i cs2 heq
    injection heq with ha hb
    exact absurd ha h2
  · rfl

/-- C7: an integer literal (optionally signed) evaluates to its numeric
value with precision 0; a decimal literal evaluates to its numeric value
with precision the fractional digit count. -/
theorem c7_literals (ds fs : List ℕ) (h1 : ds ≠ []) (h2 : ∀ d ∈ ds, d < 10)
    (h3 : fs ≠ []) (h4 : ∀ d ∈ fs, d < 10) :
    evalStack (numLit (digitsStr ds)) = some [⟨(ofDigits ds : ℚ), 0⟩] ∧
    evalStack (numLit ("-" ++ digitsStr ds)) = some [⟨-(ofDigits ds : ℚ), 0⟩] ∧
    evalStack (numLit ("+" ++ digitsStr ds)) = some [⟨(ofDigits ds : ℚ), 0⟩] ∧
    evalStack (decLit (digitsStr ds) ("." ++ digitsStr fs)) =
      some [⟨(ofDigits ds : ℚ) + (ofDigits fs : ℚ) / (10 : ℚ) ^ fs.length,
        (fs.length : ℤ)⟩] ∧
    evalStack (decLit ("-" ++ digitsStr ds) ("." ++ digitsStr fs)) =
      some [⟨-((ofDigits ds : ℚ) + (ofDigits fs : ℚ) / (10 : ℚ) ^ fs.length),
        (fs.length : ℤ)⟩] := by
  obtain ⟨d0, ds', rfl⟩ : ∃ d0 ds', ds = d0 :: ds' := by
    cases ds with
    | nil => exact absurd rfl h1
    | cons a t => exact ⟨a, t, rfl⟩
  have hstack : ∀ s : String, evalStack (numLit s) = some [⟨parseFloat s, 0⟩] := by
    intro s
    rw [evalStack_default (numLit s) (by simp [numLit, PN.kind])
      (by simp [numLit, PN.kind]) (by simp [numLit, PN.kind]), evalE_numLit]
    rfl
  have hstackd : ∀ s d : String, evalStack (decLit s d) =
      some [⟨parseFloat (s ++ d), (d.length : ℤ) - 1⟩] := by
    intro s d
    rw [evalStack_default (decLit s d) (by simp [decLit, PN.kind])
      (by simp [decLit, PN.kind]) (by simp [decLit, PN.kind]), evalE_decLit]
    rfl
  have hdata : (digitsStr (d0 :: ds')).data = (d0 :: ds').map digitChar := rfl
  have hd0p : digitChar d0 ≠ '+' := digitChar_ne_plus (h2 d0 (by simp))
  have hd0m : digitChar d0 ≠ '-' := digitChar_ne_minus (h2 d0 (by simp))
  have hpu := parseUnsigned_digits (d0 :: ds') (by simp) h2
  have hpud := parseUnsigned_decimal (d0 :: ds') fs (by simp) h2 h4
  have hflat : parseFloat (digitsStr (d0 :: ds')) = (ofDigits (d0 :: ds') : ℚ) := by
    rw [parseFloat,
      show digitsStr (d0 :: ds') = ⟨digitChar d0 :: ds'.map digitChar⟩ from rfl,
      parseFloatQ_no_sign _ _ hd0p hd0m,
      show (digitChar d0 :: ds'.map digitChar) = (d0 :: ds').map digitChar from rfl,
      hpu]
    rfl
  have hneg : parseFloat ("-" ++ digitsStr (d0 :: ds')) = -(ofDigits (d0 :: ds') : ℚ) := by
    rw [parseFloat,
      show ("-" ++ digitsStr (d0 :: ds')) = ⟨'-' :: (d0 :: ds').map digitChar⟩ from rfl,
      parseFloatQ_cons_neg, hpu]
    rfl
  have hplus : parseFloat ("+" ++ digitsStr (d0 :: ds')) = (ofDigits (d0 :: ds') : ℚ) := by
    rw [parseFloat,
      show ("+" ++ digitsStr (d0 :: ds')) = ⟨'+' :: (d0 :: ds').map digitChar⟩ from rfl,
      parseFloatQ_cons_plus, hpu]
    rfl
  have hdecdata : digitsStr (d0 :: ds') ++ ("." ++ digitsStr fs) =
      (⟨(d0 :: ds').map digitChar ++ '.' :: fs.map digitChar⟩ : String) := by
    apply congrArg String.mk
    show ((d0 :: ds').map digitChar) ++ ('.' :: fs.map digitChar) = _
    rfl
  have hdec : parseFloat (digitsStr (d0 :: ds') ++ ("." ++ digitsStr fs)) =
      (ofDigits (d0 :: ds') : ℚ) + (ofDigits fs : ℚ) / (10 : ℚ) ^ fs.length := by
    rw [parseFloat, hdecdata,
      show ((d0 :: ds').map digitChar ++ '.' :: fs.map digitChar) =
        digitChar d0 :: (ds'.map digitChar ++ '.' :: fs.map digitChar) from rfl,
      parseFloatQ_no_sign _ _ hd0p hd0m,
      show (digitChar d0 :: (ds'.map digitChar ++ '.' :: fs.map digitChar)) =
        ((d0 :: ds').map digitChar ++ '.' :: fs.map digitChar) from rfl,
      hpud]
    rfl
  have hdecneg : parseFloat (("-" ++ digitsStr (d0 :: ds')) ++ ("." ++ digitsStr fs)) =
      -((ofDigits (d0 :: ds') : ℚ) + (ofDigits fs : ℚ) / (10 : ℚ) ^ fs.length) := by
    rw [parseFloat,
      show (("-" ++ digitsStr (d0 :: ds')) ++ ("." ++ digitsStr fs)) =
        (⟨'-' :: ((d0 :: ds').map digitChar ++ '.' :: fs.map digitChar)⟩ : String) from rfl,
      parseFloatQ_cons_neg, hpud]
    rfl
  have hlen : ((("." ++ digitsStr fs)).length : ℤ) - 1 = (fs.length : ℤ) := by
    rw [show ("." ++ digitsStr fs).length = 1 + fs.length from ?_]
    · omega
    · rw [String.length_append]
      rw [show ("." : String).length = 1 from rfl]
      rw [show (digitsStr fs).length = fs.length from ?_]
      show (fs.map digitChar).length = fs.length
      exact List.length_map fs digitChar
  refine ⟨?_, ?_, ?_, ?_, ?_⟩
  · rw [hstack, hflat]
  · rw [hstack, hneg]
  · rw [hstack, hplus]
  · rw [hstackd, hdec, hlen]
  · rw [hstackd, hdecneg, hlen]

/-- C7 witness: `42.05` has value `42 + 5/100` and precision 2. -/
theorem c7_literals_witness :
    (([4, 2] : List ℕ) ≠ [] ∧ (∀ d ∈ ([4, 2] : List ℕ), d < 10) ∧
      ([0, 5] : List ℕ) ≠ [] ∧ (∀ d ∈ ([0, 5] : List ℕ), d < 10)) ∧
      evalStack (numLit (digitsStr [4, 2])) = some [⟨(ofDigits [4, 2] : ℚ), 0⟩] ∧
      evalStack (decLit (digitsStr [4, 2]) ("." ++ digitsStr [0, 5])) =
        some [⟨(ofDigits [4, 2] : ℚ) + (ofDigits [0, 5] : ℚ) / (10 : ℚ) ^
          ([0, 5] : List ℕ).length, (([0, 5] : List ℕ).length : ℤ)⟩] := by
  have h := c7_literals [4, 2] [0, 5] (by decide) (by decide) (by decide) (by decide)
  exact ⟨⟨by decide, by decide, by decide, by decide⟩, h.1, h.2.2.2.1⟩

/-! ### Index resolution and child-promotion computations (for C2). -/

theorem resolveIdx_neg_one (len : ℕ) (h : 1 ≤ len) :
    resolveIdx len (-1) = some (len - 1) := by
  rw [resolveIdx]
  simp only [if_pos (show (-1 : ℤ) < 0 by norm_num)]
  rw [if_pos (by constructor <;> omega)]
  congr 1
  omega

theorem resolveIdx_zero (len : ℕ) (h : 1 ≤ len) : resolveIdx len 0 = some 0 := by
  rw [resolveIdx]
  simp only [if_neg (show ¬((0 : ℤ) < 0) by norm_num)]
  rw [if_pos (by constructor <;> omega)]
  rfl

theorem resolveIdx_one (len : ℕ) (h : 2 ≤ len) : resolveIdx len 1 = some 1 := by
  rw [resolveIdx]
  simp only [if_neg (show ¬((1 : ℤ) < 0) by norm_num)]
  rw [if_pos (by constructor <;> omega)]
  rfl

theorem childAt_concat (k v : String) (C : List PN) (x : PN)
    (kinds : List String) :
    (PN.mk k v (C ++ [x])).childAt (-1) kinds = kinds.contains x.kind := by
  rw [PN.childAt]
  have hl : (PN.mk k v (C ++ [x])).C.length = C.length + 1 := by
    simp [PN.C]
  rw [hl, resolveIdx_neg_one _ (by omega)]
  simp only [Nat.add_sub_cancel]
  rw [show (PN.mk k v (C ++ [x])).C = C ++ [x] from rfl, List.get?_concat_length]

theorem childAt_cons_zero (k v : String) (x : PN) (C : List PN)
    (kinds : List String) :
    (PN.mk k v (x :: C)).childAt 0 kinds = kinds.contains x.kind := by
  rw [PN.childAt]
  have hl : (PN.mk k v (x :: C)).C.length = C.length + 1 := by
    simp [PN.C]
  rw [hl, resolveIdx_zero _ (by omega)]
  rfl

theorem promoteChildrenOf_concat (k v k2 v2 : String) (C inner : List PN) :
    (PN.mk k v (C ++ [PN.mk k2 v2 inner])).promoteChildrenOf (-1) =
      PN.mk k v (C ++ inner) := by
  rw [PN.promoteChildrenOf]
  have hl : (PN.mk k v (C ++ [PN.mk k2 v2 inner])).C.length = C.length + 1 := by
    simp [PN.C]
  rw [hl, resolveIdx_neg_one _ (by omega)]
  simp only [Nat.add_sub_cancel]
  rw [show (PN.mk k v (C ++ [PN.mk k2 v2 inner])).C = C ++ [PN.mk k2 v2 inner]
    from rfl, List.get?_concat_length]
  show PN.mk k v ((C ++ [PN.mk k2 v2 inner]).take C.length ++ inner ++
    (C ++ [PN.mk k2 v2 inner]).drop (C.length + 1)) = _
  rw [List.take_left, List.drop_eq_nil_of_le (by simp), List.append_nil]

theorem promoteChildrenOf_cons_zero (k v k2 v2 : String) (C inner : List PN) :
    (PN.mk k v (PN.mk k2 v2 inner :: C)).promoteChildrenOf 0 =
      PN.mk k v (inner ++ C) := by
  rw [PN.promoteChildrenOf]
  have hl : (PN.mk k v (PN.mk k2 v2 inner :: C)).C.length = C.length + 1 := by
    simp [PN.C]
  rw [hl, resolveIdx_zero _ (by omega)]
  rfl

theorem promoteChild_concat (k v k2 v2 : String) (C inner : List PN) :
    (PN.mk k v (C ++ [PN.mk k2 v2 inner])).promoteChild (-1) =
      PN.mk k2 v2 (C ++ inner) := by
  rw [PN.promoteChild]
  have hl : (PN.mk k v (C ++ [PN.mk k2 v2 inner])).C.length = C.length + 1 := by
    simp [PN.C]
  rw [hl, resolveIdx_neg_one _ (by omega)]
  simp only [Nat.add_sub_cancel]
  rw [show (PN.mk k v (C ++ [PN.mk k2 v2 inner])).C = C ++ [PN.mk k2 v2 inner]
    from rfl, List.get?_concat_length]
  show PN.mk k2 v2 ((C ++ [PN.mk k2 v2 inner]).take C.length ++ inner ++
    (C ++ [PN.mk k2 v2 inner]).drop (C.length + 1)) = _
  rw [List.take_left, List.drop_eq_nil_of_le (by simp), List.append_nil]

theorem exists_concat_of_getLast? :
    ∀ {l : List PN} {x : PN}, l.getLast? = some x → ∃ l', l = l' ++ [x] := by
  intro l
  induction l with
  | nil => intro x h; simp at h
  | cons y ys ih =>
    intro x h
    cases ys with
    | nil =>
      simp only [List.getLast?_singleton, Option.some_inj] at h
      subst h
      exact ⟨[], rfl⟩
    | cons z zs =>
      rw [List.getLast?_cons_cons] at h
      obtain ⟨l', hl'⟩ := ih h
      exact ⟨y :: l', by rw [List.cons_append, ← hl']⟩

theorem childAt_neg_one_getLast (k v : String) (C : List PN)
    (kinds : List String) (x : PN) (h : C.getLast? = some x) :
    (PN.mk k v C).childAt (-1) kinds = kinds.contains x.kind := by
  obtain ⟨C', rfl⟩ := exists_concat_of_getLast? h
  exact childAt_concat k v C' x kinds

theorem resolveIdx_len_zero (i : ℤ) : resolveIdx 0 i = none := by
  rw [resolveIdx]
  by_cases h : i < 0
  · rw [if_pos h, if_neg (by omega)]
  · rw [if_neg h, if_neg (by omega)]

theorem childAt_nil (k v : String) (i : ℤ) (kinds : List String) :
    (PN.mk k v []).childAt i kinds = false := by
  rw [PN.childAt]
  rw [show (PN.mk k v []).C.length = 0 from rfl, resolveIdx_len_zero]

/-! ### C2: the raw parse tree of `1 ( 2 3 )`.

Derivation: `Stack -> Stack P Stack` with the first `Stack` deriving `1`,
`P -> ( Stack )` with the inner `Stack` deriving `2 3`, and the trailing
`Stack` empty. -/

/-- Raw `E -> Number -> int` subtree for one integer token. -/
def rawE1 (s : String) : PN := ⟨"E", "", [⟨"Number", "", [⟨"int", s, []⟩]⟩]⟩

/-- Raw empty `Stack` (the grammar's ε production). -/
def rawStackNil : PN := ⟨"Stack", "", []⟩

/-- Raw `P -> ( Stack )` subtree for `( 2 3 )`. -/
def rawParenGroup : PN :=
  ⟨"P", "", [⟨"(", "(", []⟩,
    ⟨"Stack", "", [rawE1 ("2"), ⟨"Stack", "", [rawE1 ("3"), rawStackNil]⟩]⟩,
    ⟨")", ")", []⟩]⟩

/-- Raw parse tree of the program `1 ( 2 3 )`. -/
def rawParen1 : PN :=
  ⟨"Stack", "", [⟨"Stack", "", [rawE1 ("1"), rawStackNil]⟩, rawParenGroup,
    rawStackNil]⟩

/-- C2 counterexample: canonicalizing the raw parse tree of `1 ( 2 3 )`
does NOT splice the parenthesized group's elements into the enclosing
sequence — the group survives as an intact nested `Stack` child (which the
evaluator then maps to the zero value), although it is not the sole
argument of an aggregate operator.  The splice checks of the `stack`
reduction look only at the first and last child, each once. -/
theorem c2_group_splice_cex :
    reduce rawParen1 =
      (⟨"Stack", "", [numLit ("1"),
        ⟨"Stack", "", [numLit ("2"), numLit ("3")]⟩]⟩ : PN) ∧
    reduce rawParen1 ≠
      (⟨"Stack", "", [numLit ("1"), numLit ("2"), numLit ("3")]⟩ : PN) := by
  constructor
  · rfl
  · intro h
    rw [show reduce rawParen1 =
      (⟨"Stack", "", [numLit ("1"),
        ⟨"Stack", "", [numLit ("2"), numLit ("3")]⟩]⟩ : PN) from rfl] at h
    simp only [PN.mk.injEq] at h
    simp at h

/-- C2 amended: the canonicalizer replaces a parenthesized group by its
inner `Stack` node; the inner elements are spliced into the enclosing
`Stack` only where the `stack` reduction sees the group — as the enclosing
node's last child, first child, or sole child (the two splice checks run
once each, last position then first position).  A group flanked by other
elements on both sides remains an intact nested `Stack` child (see the
counterexample).  The aggregate-operator exception of the claim does hold:
a group that is the sole argument of an aggregate operator is kept intact
as that operator's one child. -/
theorem c2_group_splice_amended (v v2 sv : String) (c0 : PN)
    (C2 inner : List PN) :
    (c0.kind ≠ "Stack" →
      (∀ x, ((c0 :: C2) ++ inner).getLast? = some x →
        x.kind ≠ "smp" ∧ x.kind ≠ "?") →
      C2 ++ inner ≠ [] →
      stackRed (⟨"Stack", v, (c0 :: C2) ++ [⟨"Stack", v2, inner⟩]⟩ : PN) =
        ⟨"Stack", v, (c0 :: C2) ++ inner⟩) ∧
    ((∀ x, C2.getLast? = some x →
        x.kind ≠ "Stack" ∧ x.kind ≠ "smp" ∧ x.kind ≠ "?") →
      C2 ≠ [] →
      (inner ++ C2).length ≠ 1 →
      stackRed (⟨"Stack", v, ⟨"Stack", v2, inner⟩ :: C2⟩ : PN) =
        ⟨"Stack", v, inner ++ C2⟩) ∧
    ((∀ x, inner.head? = some x → x.kind ≠ "Stack") →
      (∀ x, inner.getLast? = some x → x.kind ≠ "smp" ∧ x.kind ≠ "?") →
      inner.length ≠ 1 →
      stackRed (⟨"Stack", v, [⟨"Stack", v2, inner⟩]⟩ : PN) =
        ⟨"Stack", v, inner⟩) ∧
    (∀ g : PN, applyRed (⟨"E", v, [g, ⟨"sop", sv, []⟩]⟩ : PN) =
      ⟨"sop", sv, [g]⟩) := by
  refine ⟨?_, ?_, ?_, ?_⟩
  · intro hc0 hlast hne
    have e1 : (⟨"Stack", v, (c0 :: C2) ++ [⟨"Stack", v2, inner⟩]⟩ : PN).childAt
        (-1) ["Stack"] = true := by
      rw [childAt_concat]
      rfl
    have e2 := promoteChildrenOf_concat ("Stack") v ("Stack") v2 (c0 :: C2) inner
    have e3 : (⟨"Stack", v, (c0 :: C2) ++ inner⟩ : PN).childAt 0 ["Stack"] =
        false := by
      rw [show ((c0 :: C2) ++ inner) = c0 :: (C2 ++ inner) from rfl,
        childAt_cons_zero]
      simp [hc0]
    obtain ⟨x, hx⟩ : ∃ x, ((c0 :: C2) ++ inner).getLast? = some x := by
      cases hl : ((c0 :: C2) ++ inner).getLast? with
      | none =>
        rw [List.getLast?_eq_none_iff] at hl
        simp at hl
      | some x => exact ⟨x, rfl⟩
    have e4 : (⟨"Stack", v, (c0 :: C2) ++ inner⟩ : PN).childAt (-1)
        ["smp", "?"] = false := by
      rw [childAt_neg_one_getLast _ _ _ _ x hx]
      have h5 := hlast x hx
      simp [h5.1, h5.2]
    have e5 : (⟨"Stack", v, (c0 :: C2) ++ inner⟩ : PN).promoteSingleChild =
        ⟨"Stack", v, (c0 :: C2) ++ inner⟩ := by
      cases hci : C2 ++ inner with
      | nil => exact absurd hci hne
      | cons y ys =>
        rw [show ((c0 :: C2) ++ inner) = c0 :: (C2 ++ inner) from rfl, hci]
        rfl
    rw [stackRed]
    simp only [List.cons_append] at e1 e2 e3 e4 e5 ⊢
    simp [e1, e2, e3, e4, e5]
  · intro hlast hne hlen
    obtain ⟨x, hx⟩ : ∃ x, C2.getLast? = some x := by
      cases hl : C2.getLast? with
      | none =>
        rw [List.getLast?_eq_none_iff] at hl
        exact absurd hl hne
      | some x => exact ⟨x, rfl⟩
    obtain ⟨C2', rfl⟩ := exists_concat_of_getLast? hx
    have hx3 := hlast x hx
    have e1 : (⟨"Stack", v, ⟨"Stack", v2, inner⟩ :: (C2' ++ [x])⟩ : PN).childAt
        (-1) ["Stack"] = false := by
      rw [childAt_neg_one_getLast _ _ _ _ x
        (by rw [show (⟨"Stack", v2, inner⟩ : PN) :: (C2' ++ [x]) =
          ((⟨"Stack", v2, inner⟩ : PN) :: C2') ++ [x] from rfl,
          List.getLast?_concat])]
      simp [hx3.1]
    have e2 : (⟨"Stack", v, ⟨"Stack", v2, inner⟩ :: (C2' ++ [x])⟩ : PN).childAt
        0 ["Stack"] = true := by
      rw [childAt_cons_zero]
      rfl
    have e3 := promoteChildrenOf_cons_zero ("Stack") v ("Stack") v2
      (C2' ++ [x]) inner
    have e4 : (⟨"Stack", v, inner ++ (C2' ++ [x])⟩ : PN).childAt (-1)
        ["smp", "?"] = false := by
      rw [childAt_neg_one_getLast _ _ _ _ x
        (by rw [show inner ++ (C2' ++ [x]) = (inner ++ C2') ++ [x] by
          rw [List.append_assoc], List.getLast?_concat])]
      simp [hx3.2.1, hx3.2.2]
    have e5 : (⟨"Stack", v, inner ++ (C2' ++ [x])⟩ : PN).promoteSingleChild =
        ⟨"Stack", v, inner ++ (C2' ++ [x])⟩ := by
      cases hci : inner ++ (C2' ++ [x]) with
      | nil => simp at hci
      | cons y ys =>
        cases ys with
        | nil =>
          rw [hci] at hlen
          simp at hlen
        | cons z zs => rfl
    rw [stackRed]
    simp [e1, e2, e3, e4, e5]
  · intro hh hlast hlen
    have e1 : (⟨"Stack", v, [⟨"Stack", v2, inner⟩]⟩ : PN).childAt (-1)
        ["Stack"] = true := by
      rw [show ([⟨"Stack", v2, inner⟩] : List PN) =
        [] ++ [⟨"Stack", v2, inner⟩] from rfl, childAt_concat]
      rfl
    have e2 : (⟨"Stack", v, [⟨"Stack", v2, inner⟩]⟩ : PN).promoteChildrenOf
        (-1) = ⟨"Stack", v, inner⟩ := by
      rw [show ([⟨"Stack", v2, inner⟩] : List PN) =
        [] ++ [⟨"Stack", v2, inner⟩] from rfl, promoteChildrenOf_concat]
      rfl
    have e3 : (⟨"Stack", v, inner⟩ : PN).childAt 0 ["Stack"] = false := by
      cases inner with
      | nil => exact childAt_nil _ _ _ _
      | cons d t =>
        rw [childAt_cons_zero]
        simp [hh d rfl]
    have e4 : (⟨"Stack", v, inner⟩ : PN).childAt (-1) ["smp", "?"] = false := by
      cases hl : inner.getLast? with
      | none =>
        rw [List.getLast?_eq_none_iff] at hl
        subst hl
        exact childAt_nil _ _ _ _
      | some x =>
        rw [childAt_neg_one_getLast _ _ _ _ x hl]
        have h5 := hlast x hl
        simp [h5.1, h5.2]
    have e5 : (⟨"Stack", v, inner⟩ : PN).promoteSingleChild =
        ⟨"Stack", v, inner⟩ := by
      cases inner with
      | nil => rfl
      | cons y ys =>
        cases ys with
        | nil => simp at hlen
        | cons z zs => rfl
    rw [stackRed]
    simp [e1, e2, e3, e4, e5]
  · intro g
    have hk : (⟨"E", v, [g, ⟨"sop", sv, []⟩]⟩ : PN).kind = "E" := rfl
    rw [applyRed, hk]
    rw [if_neg (by decide : ¬(("E" : String) = "Stack"))]
    rw [if_pos (Or.inl (rfl : ("E" : String) = "E"))]
    rw [show ([g, ⟨"sop", sv, []⟩] : List PN) = [g] ++ [⟨"sop", sv, []⟩]
      from rfl, promoteChild_concat]
    rfl

/-- C2 amended witness: a trailing group after one element is spliced. -/
theorem c2_group_splice_amended_witness :
    ((numLit ("1")).kind ≠ "Stack") ∧
      stackRed (⟨"Stack", "",
          [numLit ("1")] ++ [⟨"Stack", "", [numLit ("2")]⟩]⟩ : PN) =
        ⟨"Stack", "", [numLit ("1")] ++ [numLit ("2")]⟩ :=
  ⟨by decide,
    (c2_group_splice_amended ("") ("") ("") (numLit ("1")) [] [numLit ("2")]).1
      (by decide)
      (by
        intro x hx
        have h2 : numLit ("2") = x := Option.some_inj.mp hx
        subst h2
        exact ⟨by decide, by decide⟩)
      (by simp)⟩

/-! ### C9: precision bounds. -/

/-- The precision carried by a literal node itself — the claim's notion of
"literal precision": a two-child `Number` carries `len(dec) - 1`, every
other node carries none (`0`). -/
def litPrec (n : PN) : ℤ :=
  match n with
  | ⟨"Number", _, [_, d]⟩ => (d.val.length : ℤ) - 1
  | _ => 0

mutual

/-- Maximum literal precision over a tree (the claim's "maximum literal
precision appearing in the sub-expression", `0` when there is none). -/
def maxLitPrec (n : PN) : ℤ :=
  match n with
  | PN.mk k v C => max (litPrec (PN.mk k v C)) (maxLitPrecL C)

/-- Maximum literal precision over a forest. -/
def maxLitPrecL (l : List PN) : ℤ :=
  match l with
  | [] => 0
  | x :: xs => max (maxLitPrec x) (maxLitPrecL xs)

end

/-- Evaluation of a ternary node that carries one extra leading stack
element: the promoted branch absorbs the leading element into its own
child list. -/
theorem evalStack_ternary4 (x A B C : PN) (v : String) (c : Pfloat)
    (h : evalE C = some c) (hpos : c.V > 0) :
    evalStack (⟨"?", v, [x, A, B, C]⟩ : PN) =
      evalStack (⟨B.kind, B.val, [x] ++ B.C⟩ : PN) := by
  rw [evalStack]
  split
  · rename_i heq
    exact absurd heq (by simp)
  · rename_i cond heq
    have hgl : ([x, A, B, C] : List PN).getLast? = some C := rfl
    rw [hgl] at heq
    have hc2 : C = cond := Option.some_inj.mp heq
    subst hc2
    rw [h]
    simp only [hpos, if_true]
    rw [dif_pos (by simp)]
    split
    · rename_i heq2
      rw [if_pos hpos] at heq2
      have heq3 : (some B : Option PN) = none := heq2
      exact absurd heq3 (by simp)
    · rename_i b heq2
      rw [if_pos hpos] at heq2
      have heq3 : (some B : Option PN) = some b := heq2
      have hb : B = b := Option.some_inj.mp heq3
      subst hb
      rfl

/-- C9 counterexample: evaluating the canonical tree of `9 1 12345 3 ?`
(a ternary node holding one extra stack element, as the `stack` reduction
builds for a ternary preceded by other elements) produces precision 4,
strictly above the maximal literal precision 0 of the whole expression —
the ternary rewrite splices the leading element into a `Number` node, and
the digit count of that node's second child becomes a precision. -/
theorem c9_precision_bound_cex :
    evalStack (⟨"?", "?", [numLit ("9"), numLit ("1"), numLit ("12345"),
        numLit ("3")]⟩ : PN) = some [⟨12345, 4⟩] ∧
    maxLitPrec (⟨"?", "?", [numLit ("9"), numLit ("1"), numLit ("12345"),
        numLit ("3")]⟩ : PN) = 0 := by
  constructor
  · rw [evalStack_ternary4 (numLit ("9")) (numLit ("1")) (numLit ("12345"))
      (numLit ("3")) ("?") ⟨3, 0⟩ (by rw [evalE_numLit]; decide) (by decide)]
    rw [show (⟨(numLit ("12345")).kind, (numLit ("12345")).val,
      [numLit ("9")] ++ (numLit ("12345")).C⟩ : PN) =
      ⟨"Number", "", [numLit ("9"), ⟨"int", "12345", []⟩]⟩ from rfl]
    rw [evalStack_default _ (by decide) (by decide) (by decide)]
    rw [evalE]
    decide
  · decide

/-- Lexical shape of a `Number` node's child list: at least one child, and
the child whose text the evaluator's precision computation reads is a
non-empty token (the lexer's `int` and `dec` patterns guarantee this). -/
def shapeOK (k : String) (C : List PN) : Bool :=
  if k = "Number" then
    match C with
    | [] => false
    | [c0] => decide (1 ≤ c0.val.length)
    | [_, c1] => decide (1 ≤ c1.val.length)
    | _ => true
  else true

mutual

/-- Lexical well-formedness of a tree: every `Number` subtree satisfies
`shapeOK`. -/
def lexWF (n : PN) : Bool :=
  match n with
  | PN.mk k v C => shapeOK k C && lexWFL C

/-- Lexical well-formedness of a forest. -/
def lexWFL (l : List PN) : Bool :=
  match l with
  | [] => true
  | x :: xs => lexWF x && lexWFL xs

end

theorem lexWF_mk (k v : String) (C : List PN) :
    lexWF (PN.mk k v C) = (shapeOK k C && lexWFL C) := rfl

theorem lexWFL_mem : ∀ {l : List PN}, lexWFL l = true →
    ∀ c ∈ l, lexWF c = true := by
  intro l
  induction l with
  | nil => intro _ c hc; cases hc
  | cons x xs ih =>
    intro h c hc
    rw [show lexWFL (x :: xs) = (lexWF x && lexWFL xs) from rfl] at h
    simp only [Bool.and_eq_true] at h
    rcases List.mem_cons.mp hc with h1 | h2
    · subst h1
      exact h.1
    · exact ih h.2 c h2

theorem lexWF_children {k v : String} {C : List PN}
    (h : lexWF (PN.mk k v C) = true) : ∀ c ∈ C, lexWF c = true := by
  rw [lexWF_mk] at h
  simp only [Bool.and_eq_true] at h
  exact lexWFL_mem h.2

theorem lexWF_shape {k v : String} {C : List PN}
    (h : lexWF (PN.mk k v C) = true) : shapeOK k C = true := by
  rw [lexWF_mk] at h
  simp only [Bool.and_eq_true] at h
  exact h.1

/-- The precondition the evaluation recursion actually maintains: the
children are lexically well-formed, and a `Number` node at the top has a
well-formed shape (nodes freshly built by the ternary rewrite satisfy
this, but are not themselves `lexWF`). -/
def QWF (n : PN) : Prop :=
  (∀ c ∈ n.C, lexWF c = true) ∧ (n.kind = "Number" → shapeOK n.kind n.C = true)

theorem lexWF_QWF (n : PN) (h : lexWF n = true) : QWF n := by
  cases n with
  | mk k v C => exact ⟨lexWF_children h, fun _ => lexWF_shape h⟩

theorem foldr_maxP_nonneg (l : List Pfloat) :
    0 ≤ (l.map Pfloat.P).foldr max 0 := by
  induction l with
  | nil => simp
  | cons x xs ih =>
    simp only [List.map_cons, List.foldr_cons]
    omega

theorem maxPrecision_nonneg (l : List Pfloat) : 0 ≤ maxPrecision l := by
  rw [maxPrecision_eq]
  exact foldr_maxP_nonneg l

theorem evalUop_P (ae : Pfloat) (v : String) : (evalUop ae v).P = ae.P := by
  rw [evalUop]
  split_ifs <;> rfl

theorem evalBop_P (ae be : Pfloat) (v : String) :
    (evalBop ae be v).P = maxPrecision [ae, be] := rfl

theorem evalSop_P_nonneg (st : List Pfloat) (v : String)
    (h : ∀ p ∈ st, 0 ≤ p.P) : 0 ≤ (evalSop st v).P := by
  rw [evalSop.eq_def]
  split_ifs
  · exact maxPrecision_nonneg st
  · exact maxPrecision_nonneg st
  · exact maxPrecision_nonneg st
  · exact le_refl (0 : ℤ)
  · cases st with
    | nil => exact le_refl (0 : ℤ)
    | cons x xs =>
      show 0 ≤ (xs.foldl (fun v p => if p.V < v.V then p else v) x).P
      obtain ⟨i, h1, _, _⟩ := minFold_spec xs x
      exact h _ (List.get?_mem h1)
  · cases st with
    | nil => exact le_refl (0 : ℤ)
    | cons x xs =>
      show 0 ≤ (xs.foldl (fun v p => if p.V > v.V then p else v) x).P
      obtain ⟨i, h1, _, _⟩ := maxFold_spec xs x
      exact h _ (List.get?_mem h1)
  · cases st with
    | nil => exact le_refl (0 : ℤ)
    | cons x xs =>
      show 0 ≤ x.P
      exact h x (by simp)
  · cases hl : st.getLast? with
    | none => exact le_refl (0 : ℤ)
    | some y => exact h y (List.mem_of_mem_getLast? (by rw [hl]; rfl))
  · exact le_refl (0 : ℤ)

theorem evalSmp_subset (v : String) (C : List PN) :
    ∀ y ∈ evalSmp v C, y ∈ C := by
  rw [evalSmp]
  split_ifs
  · split
    · rename_i b a rest hrev
      intro y hy
      rw [List.mem_reverse] at hy
      have hC : C = (b :: a :: rest).reverse := by
        rw [← hrev, List.reverse_reverse]
      rw [hC, List.mem_reverse]
      simp only [List.mem_cons] at hy ⊢
      tauto
    · intro y hy
      exact hy
  · intro y hy
    exact (List.dropLast_sublist C).subset hy
  · intro y hy
    simp at hy
  · intro y hy
    exact hy

theorem shapeOK_number_nil : shapeOK ("Number") [] = false := rfl

theorem shapeOK_number_one (c0 : PN) :
    shapeOK ("Number") [c0] = true ↔ 1 ≤ c0.val.length := by
  rw [shapeOK]
  simp

theorem shapeOK_number_two (c0 c1 : PN) :
    shapeOK ("Number") [c0, c1] = true ↔ 1 ≤ c1.val.length := by
  rw [shapeOK]
  simp

theorem shapeOK_number_big (c0 c1 c2 : PN) (r : List PN) :
    shapeOK ("Number") (c0 :: c1 :: c2 :: r) = true := rfl

/-- Prepending elements to a shape-correct `Number` child list keeps it
shape-correct: the element the precision computation reads either comes
from the original list (covered by its shape) or the list grows past the
two-child form (always shape-correct). -/
theorem shapeOK_append (E bC : List PN) (hb : shapeOK ("Number") bC = true) :
    shapeOK ("Number") (E ++ bC) = true := by
  rcases bC with _ | ⟨y, _ | ⟨y2, ys2⟩⟩
  · rw [shapeOK_number_nil] at hb
    cases hb
  · have hy := (shapeOK_number_one y).mp hb
    rcases E with _ | ⟨e1, _ | ⟨e2, es⟩⟩
    · exact hb
    · exact (shapeOK_number_two e1 y).mpr hy
    · rcases hes : es ++ [y] with _ | ⟨z, zs⟩
      · simp at hes
      · rw [show (e1 :: e2 :: es) ++ [y] = e1 :: e2 :: (es ++ [y]) from rfl,
          hes]
        exact shapeOK_number_big e1 e2 z zs
  · rcases ys2 with _ | ⟨y3, ys3⟩
    · have hy2 := (shapeOK_number_two y y2).mp hb
      rcases E with _ | ⟨e1, es⟩
      · exact hb
      · rcases hes : es ++ [y, y2] with _ | ⟨z, _ | ⟨z2, zs⟩⟩
        · simp at hes
        · have := congrArg List.length hes
          simp at this
        · rw [show (e1 :: es) ++ [y, y2] = e1 :: (es ++ [y, y2]) from rfl,
            hes]
          exact shapeOK_number_big e1 z z2 zs
    · rcases E with _ | ⟨e1, es⟩
      · exact hb
      · rcases hes : es ++ y :: y2 :: y3 :: ys3 with _ | ⟨z, _ | ⟨z2, zs⟩⟩
        · simp at hes
        · have := congrArg List.length hes
          simp at this
          omega
        · rw [show (e1 :: es) ++ (y :: y2 :: y3 :: ys3) =
            e1 :: (es ++ y :: y2 :: y3 :: ys3) from rfl, hes]
          exact shapeOK_number_big e1 z z2 zs

/-- Size and well-formedness of the node the ternary rewrite promotes. -/
theorem ternary_promoted_bound (v : String) (C : List PN) (cond : PN)
    (heqL : C.getLast? = some cond) (j : ℕ) (hj : j < C.dropLast.length)
    (bk bv : String) (bC : List PN)
    (heqD : (C.dropLast.eraseIdx j).getLast? = some (PN.mk bk bv bC))
    (hq : QWF (PN.mk "?" v C)) :
    (PN.size (PN.mk bk bv ((C.dropLast.eraseIdx j).dropLast ++ bC)) + 1 <
      PN.size (PN.mk "?" v C)) ∧
    QWF (PN.mk bk bv ((C.dropLast.eraseIdx j).dropLast ++ bC)) := by
  have hsz1 := sizeList_eraseIdx hj
  have hsz2 := size_promote bk bv heqD
  have hsz3 := sizeList_of_getLast? heqL
  have hsz4 := PN.size_pos cond
  have hbC : PN.mk bk bv bC ∈ C :=
    (List.dropLast_sublist C).subset
      ((List.eraseIdx_sublist C.dropLast j).subset
        (List.mem_of_mem_getLast? (by rw [heqD]; rfl)))
  have hbWF : lexWF (PN.mk bk bv bC) = true := hq.1 _ hbC
  refine ⟨?_, ?_, ?_⟩
  · have hsz5 : (PN.mk bk bv ((C.dropLast.eraseIdx j).dropLast ++ bC)).size =
        sizeList (C.dropLast.eraseIdx j) := hsz2
    rw [hsz5, PN.size_mk]
    omega
  · intro y hy
    rcases List.mem_append.mp hy with h1 | h2
    · exact hq.1 y ((List.dropLast_sublist C).subset
        ((List.eraseIdx_sublist C.dropLast j).subset
          ((List.dropLast_sublist _).subset h1)))
    · exact lexWF_children hbWF y h2
  · intro hbk
    have hbk2 : bk = "Number" := hbk
    subst hbk2
    show shapeOK ("Number") ((C.dropLast.eraseIdx j).dropLast ++ bC) = true
    exact shapeOK_append _ bC (lexWF_shape hbWF)

/-- Non-negativity of every produced precision, by strong induction on
the evaluation measure. -/
theorem precNonnegAux : ∀ N : ℕ,
    (∀ n : PN, 2 * PN.size n ≤ N → QWF n → ∀ p, evalE n = some p →
      0 ≤ p.P) ∧
    (∀ n : PN, 2 * PN.size n + 1 ≤ N → QWF n → ∀ l, evalStack n = some l →
      ∀ p ∈ l, 0 ≤ p.P) ∧
    (∀ l : List PN, 2 * sizeList l + 1 ≤ N → (∀ c ∈ l, lexWF c = true) →
      ∀ ps, evalList l = some ps → ∀ p ∈ ps, 0 ≤ p.P) := by
  intro N
  induction N using Nat.strong_induction_on with
  | _ N ih =>
    refine ⟨?_, ?_, ?_⟩
    · intro n hN hq p he
      have hNpos : 2 ≤ N := by
        have := PN.size_pos n
        omega
      obtain ⟨ihE, ihS, ihL⟩ := ih (N - 1) (by omega)
      rw [evalE.eq_def] at he
      split at he
      · obtain rfl := Option.some_inj.mp he
        exact le_refl (0 : ℤ)
      · rename_i v c0 c1
        obtain rfl := Option.some_inj.mp he
        have hshape := hq.2 rfl
        have hc1 := (shapeOK_number_two c0 c1).mp hshape
        show 0 ≤ (c1.val.length : ℤ) - 1
        omega
      · obtain rfl := Option.some_inj.mp he
        exact le_refl (0 : ℤ)
      · rename_i v c0 tail
        rw [Option.map_eq_some'] at he
        obtain ⟨ae, hae, rfl⟩ := he
        rw [evalUop_P]
        refine ihE c0 ?_ ?_ ae hae
        · rw [PN.size_mk, sizeList_cons] at hN
          omega
        · exact lexWF_QWF c0 (hq.1 c0 (List.mem_cons_self c0 tail))
      · exact absurd he (by simp)
      · rename_i v c0 c1 tail
        split at he
        · rename_i ae be hae hbe
          obtain rfl := Option.some_inj.mp he
          rw [evalBop_P]
          exact maxPrecision_nonneg [ae, be]
        · exact absurd he (by simp)
      · exact absurd he (by simp)
      · rename_i v c0 tail
        rw [Option.map_eq_some'] at he
        obtain ⟨st, hst, rfl⟩ := he
        refine evalSop_P_nonneg st v ?_
        refine ihS c0 ?_ ?_ st hst
        · rw [PN.size_mk, sizeList_cons] at hN
          omega
        · exact lexWF_QWF c0 (hq.1 c0 (List.mem_cons_self c0 tail))
      · exact absurd he (by simp)
      · obtain rfl := Option.some_inj.mp he
        exact le_refl (0 : ℤ)
    · intro n hN hq l he
      have hNpos : 2 ≤ N := by
        have := PN.size_pos n
        omega
      obtain ⟨ihE, ihS, ihL⟩ := ih (N - 1) (by omega)
      rw [evalStack.eq_def] at he
      split at he
      · rename_i v C
        split at he
        · exact absurd he (by simp)
        · rename_i cond heqL
          split at he
          · exact absurd he (by simp)
          · rename_i cv heqE
            by_cases hpos : cv.V > 0
            · simp only [hpos, if_true] at he
              split at he
              · rename_i hk
                split at he
                · exact absurd he (by simp)
                · rename_i b heqD
                  cases b with
                  | mk bk bv bC =>
                    rw [if_pos hpos] at heqD
                    have he2 : evalStack (PN.mk bk bv
                        ((C.dropLast.eraseIdx (C.dropLast.length - 2)).dropLast
                          ++ bC)) = some l := he
                    obtain ⟨hsz, hqw⟩ := ternary_promoted_bound v C cond heqL
                      (C.dropLast.length - 2) (by omega) bk bv bC heqD hq
                    refine ihS _ ?_ hqw l he2
                    omega
              · exact absurd he (by simp)
            · simp only [hpos, if_false] at he
              split at he
              · rename_i hk
                split at he
                · exact absurd he (by simp)
                · rename_i b heqD
                  cases b with
                  | mk bk bv bC =>
                    rw [if_neg hpos] at heqD
                    have he2 : evalStack (PN.mk bk bv
                        ((C.dropLast.eraseIdx (C.dropLast.length - 1)).dropLast
                          ++ bC)) = some l := he
                    obtain ⟨hsz, hqw⟩ := ternary_promoted_bound v C cond heqL
                      (C.dropLast.length - 1) (by omega) bk bv bC heqD hq
                    refine ihS _ ?_ hqw l he2
                    omega
              · exact absurd he (by simp)
      · rename_i v C
        refine ihL (evalSmp v C) ?_ ?_ l he
        · have := sizeList_evalSmp v C
          rw [PN.size_mk] at hN
          omega
        · intro c hc
          exact hq.1 c (evalSmp_subset v C c hc)
      · rename_i v C
        refine ihL C ?_ ?_ l he
        · rw [PN.size_mk] at hN
          omega
        · exact hq.1
      · rw [Option.map_eq_some'] at he
        obtain ⟨p, hp, rfl⟩ := he
        intro q hq2
        rw [List.mem_singleton] at hq2
        subst hq2
        refine ihE n ?_ hq q hp
        omega
    · intro l hN hw ps he
      have hNpos : 1 ≤ N := by omega
      obtain ⟨ihE, ihS, ihL⟩ := ih (N - 1) (by omega)
      rw [evalList.eq_def] at he
      split at he
      · obtain rfl := Option.some_inj.mp he
        intro p hp
        simp at hp
      · rename_i x xs
        split at he
        · rename_i p' ps' heqx heqxs
          obtain rfl := Option.some_inj.mp he
          intro q hqm
          rcases List.mem_cons.mp hqm with h1 | h2
          · subst h1
            refine ihE x ?_ (lexWF_QWF x (hw x (List.mem_cons_self x xs))) q heqx
            rw [sizeList_cons] at hN
            have := PN.size_pos x
            omega
          · refine ihL xs ?_ ?_ ps' heqxs q h2
            · rw [sizeList_cons] at hN
              have := PN.size_pos x
              omega
            · intro c hc
              exact hw c (List.mem_cons_of_mem x hc)
        · exact absurd he (by simp)

/-- C9 amended: for every lexically well-formed tree (non-empty literal
token texts, as the lexer guarantees), every precision produced by
evaluation is non-negative.  The claim's second half — that a produced
precision never exceeds the maximum literal precision of the
sub-expression — is refuted by `c9_precision_bound_cex`. -/
theorem c9_precision_nonneg (n : PN) (h : lexWF n = true) :
    (∀ p, evalE n = some p → 0 ≤ p.P) ∧
    (∀ l, evalStack n = some l → ∀ p ∈ l, 0 ≤ p.P) := by
  obtain ⟨hA, hB, _⟩ := precNonnegAux (2 * PN.size n + 1)
  exact ⟨fun p hp => hA n (by omega) (lexWF_QWF n h) p hp,
    fun l hl => hB n (le_refl _) (lexWF_QWF n h) l hl⟩

/-- C9 witness at a concrete literal. -/
theorem c9_precision_nonneg_witness :
    lexWF (numLit ("7")) = true ∧
      ((∀ p, evalE (numLit ("7")) = some p → 0 ≤ p.P) ∧
        (∀ l, evalStack (numLit ("7")) = some l → ∀ p ∈ l, 0 ≤ p.P)) :=
  ⟨by decide, c9_precision_nonneg (numLit ("7")) (by decide)⟩

end SCalc
